import Mathlib

/-!
# Verification of the tangen schema-IR compiler core

This file gives a shallow embedding, in Lean 4, of the IR utilities of the
tangen code generator (`packages/cli/src/generators/ir/utils.ts`), of its
emitter registry (`packages/cli/src/generators/emitters/index.ts`), and of the
optionality-lowering conventions of its parsers and Zod emitter, together with
proofs of the behavioural properties stated in the project specification.

Modelling conventions:
* JavaScript strings handled character by character (the naming utilities) are
  modelled as lists of UTF-16 code units (`List Nat`); `jsStr` converts a Lean
  string literal to that representation.  `String.prototype.toUpperCase` /
  `toLowerCase` are modelled on the ASCII range, which is exact for the
  identifier character set these utilities are applied to.
* A JavaScript `Set<string>` is modelled as a duplicate-free `List String` in
  insertion order (`setAdd` mirrors `Set.prototype.add`, `List.erase` mirrors
  `Set.prototype.delete`).
* A JavaScript `Map<string, T>` populated by repeated `set` calls is modelled
  by the lookup function `schemaMapGet`, which returns the value of the last
  insertion for a key, exactly as the final state of the `Map` does.
* The depth-first `visit` of `topologicalSortSchemas` is given explicit fuel
  so that it is structurally recursive; `schemas.length + 1` fuel is proved
  sufficient (the `visiting` stack of the JavaScript code never holds more
  than the number of distinct names, so recursion never reaches that depth:
  the invariant lemmas below carry the bound and show the fuel-exhausted
  branch is unreachable).
-/

namespace Tangen

/-! ## Character-level string model for the naming utilities -/

/-- JavaScript strings, as lists of UTF-16 code units. -/
abbrev JsString := List Nat

/-- Convert a Lean string literal to its list of code units. -/
def jsStr (s : String) : JsString := s.data.map Char.toNat

/-- ASCII fragment of `String.prototype.toUpperCase`, per code unit. -/
def jsToUpperChar (c : Nat) : Nat := if 97 ≤ c ∧ c ≤ 122 then c - 32 else c

/-- ASCII fragment of `String.prototype.toLowerCase`, per code unit. -/
def jsToLowerChar (c : Nat) : Nat := if 65 ≤ c ∧ c ≤ 90 then c + 32 else c

/-- One pass of `str.replace(/[-_](.)/g, (_, c) => c.toUpperCase())` from
`toPascalCase` in `ir/utils.ts`: at a `-` (45) or `_` (95) followed by a
character other than a newline (10, which `.` does not match), the pair is
replaced by the upper-cased following character and scanning resumes after
the pair; otherwise the character is kept and scanning moves on by one. -/
def pascalReplaceAux : JsString → JsString
  | [] => []
  | c :: rest =>
    if c = 45 ∨ c = 95 then
      match rest with
      | [] => [c]
      | d :: rest2 =>
        if d = 10 then c :: d :: pascalReplaceAux rest2
        else jsToUpperChar d :: pascalReplaceAux rest2
    else c :: pascalReplaceAux rest

/-- The pass `str.replace(/^(.)/, (_, c) => c.toUpperCase())`: upper-case the
first character when there is one and it is not a newline. -/
def upperFirst : JsString → JsString
  | [] => []
  | c :: rest => if c = 10 then c :: rest else jsToUpperChar c :: rest

/-- `toPascalCase` from `ir/utils.ts`. -/
def toPascalCase (str : JsString) : JsString :=
  upperFirst (pascalReplaceAux str)

/-- `toSchemaName` from `ir/utils.ts`:
`typeName.charAt(0).toLowerCase() + typeName.slice(1)` followed by the literal
suffix `"Schema"`. -/
def toSchemaName (typeName : JsString) : JsString :=
  (match typeName with
   | [] => []
   | c :: rest => jsToLowerChar c :: rest) ++ jsStr "Schema"

/-- Membership of a code unit in `[a-zA-Z_$]`, the first-character class of
the identifier regex in `isValidIdentifier`. -/
def isIdentStartChar (c : Nat) : Bool :=
  (65 ≤ c && c ≤ 90) || (97 ≤ c && c ≤ 122) || c = 95 || c = 36

/-- Membership of a code unit in `[a-zA-Z0-9_$]`. -/
def isIdentChar (c : Nat) : Bool :=
  isIdentStartChar c || (48 ≤ c && c ≤ 57)

/-- `isValidIdentifier` from `ir/utils.ts`:
`/^[a-zA-Z_$][a-zA-Z0-9_$]*$/.test(name)`. -/
def isValidIdentifier : JsString → Bool
  | [] => false
  | c :: rest => isIdentStartChar c && rest.all isIdentChar

/-- `getSafePropertyName` from `ir/utils.ts`: the name itself when it is a
valid identifier, otherwise the name wrapped in one pair of double quotes
(code unit 34). -/
def getSafePropertyName (name : JsString) : JsString :=
  if isValidIdentifier name then name else 34 :: (name ++ [34])

/-- Decidable test that a string starts with an ASCII lower-case letter
(97–122); the empty string, with head default 0, fails the test. -/
def startsWithLower (s : JsString) : Bool :=
  97 ≤ s.headD 0 && s.headD 0 ≤ 122

/-- Decidable test for an ASCII letter. -/
def isAsciiLetterChar (c : Nat) : Bool :=
  (65 ≤ c && c ≤ 90) || (97 ≤ c && c ≤ 122)

/-! ## Emitter registry (`generators/emitters/index.ts`) -/

/-- The slice of the `Emitter` interface relevant to registry lookup: the
`library` identifier the emitter targets.  The emitter behaviour itself
(`emit`, `getImportStatement`, `getTypeInference`) is modelled separately for
the claims that need it. -/
structure Emitter where
  library : String
deriving DecidableEq

/-- Modelled from the spec: the Zod emitter instance (`emitters/zod.ts` is not
part of the provided sources); per the registry and the emitter tests its
`library` field is the string `"zod"`. -/
def zodEmitter : Emitter := ⟨"zod"⟩

/-- Modelled from the spec: the Valibot emitter instance, `library`
`"valibot"`. -/
def valibotEmitter : Emitter := ⟨"valibot"⟩

/-- Modelled from the spec: the ArkType emitter instance, `library`
`"arktype"`. -/
def arktypeEmitter : Emitter := ⟨"arktype"⟩

/-- The registry object `emitters` from `emitters/index.ts`, as an association
list in property order. -/
def emitters : List (String × Emitter) :=
  [("zod", zodEmitter), ("valibot", valibotEmitter), ("arktype", arktypeEmitter)]

/-- `getEmitter` from `emitters/index.ts`: look the library up in the
registry; when absent, throw an error naming the requested identifier and the
comma-joined list of registry keys. -/
def getEmitter (library : String) : Except String Emitter :=
  match emitters.lookup library with
  | some e => Except.ok e
  | none =>
    Except.error ("Unknown validator library: " ++ library ++
      ". Supported libraries: " ++ String.intercalate ", " (emitters.map Prod.fst))

/-- `isValidatorLibrary` from `emitters/index.ts`. -/
def isValidatorLibrary (value : String) : Bool :=
  value = "zod" || value = "valibot" || value = "arktype"

/-- `supportedValidators` from `emitters/index.ts`. -/
def supportedValidators : List String :=
  ["zod", "valibot", "arktype"]

end Tangen

namespace Tangen

/-! ## Claim theorems: naming utilities and registry -/

/-- C6, counterexample: the string `"$a"` is identifier-safe in the sense of
the claim (it matches `[A-Za-z_$][A-Za-z0-9_$]*`), yet
`toSchemaName(toPascalCase("$a")) = "$aSchema"` does not start with a
lower-case character, because neither `toUpperCase` nor `toLowerCase` moves
`$`. -/
theorem toSchemaName_dollar_not_lower :
    isValidIdentifier (jsStr "$a") = true ∧
    toSchemaName (toPascalCase (jsStr "$a")) = jsStr "$aSchema" ∧
    startsWithLower (toSchemaName (toPascalCase (jsStr "$a"))) = false := by
  refine ⟨by decide, by decide, by decide⟩

/-- C6, amended: for every non-empty identifier-safe string whose first
character is an ASCII letter (rather than `_` or `$`),
`toSchemaName (toPascalCase s)` starts with a lower-case letter and ends with
`"Schema"`. -/
theorem toSchemaName_toPascalCase_roundtrip (s : JsString) (c : Nat) (cs : List Nat)
    (hs : s = c :: cs) (hc : isAsciiLetterChar c = true)
    (hid : isValidIdentifier s = true) :
    startsWithLower (toSchemaName (toPascalCase s)) = true ∧
    jsStr "Schema" <:+ toSchemaName (toPascalCase s) := by
  subst hs
  have hc2 : (65 ≤ c ∧ c ≤ 90) ∨ (97 ≤ c ∧ c ≤ 122) := by
    simp only [isAsciiLetterChar, Bool.or_eq_true, Bool.and_eq_true,
      decide_eq_true_eq] at hc
    omega
  have hdash : ¬(c = 45 ∨ c = 95) := by omega
  have hnl : ¬(c = 10) := by omega
  have h1 : pascalReplaceAux (c :: cs) = c :: pascalReplaceAux cs := by
    rw [pascalReplaceAux.eq_def]
    simp only [if_neg hdash]
  have h2 : toPascalCase (c :: cs) = jsToUpperChar c :: pascalReplaceAux cs := by
    simp only [toPascalCase, h1, upperFirst]
    simp [hnl]
  have h3 : toSchemaName (jsToUpperChar c :: pascalReplaceAux cs) =
      jsToLowerChar (jsToUpperChar c) :: (pascalReplaceAux cs ++ jsStr "Schema") := by
    simp [toSchemaName]
  have hval : 97 ≤ jsToLowerChar (jsToUpperChar c) ∧
      jsToLowerChar (jsToUpperChar c) ≤ 122 := by
    simp only [jsToUpperChar, jsToLowerChar]
    rcases hc2 with h | h
    · rw [if_neg (show ¬(97 ≤ c ∧ c ≤ 122) by omega),
        if_pos (show 65 ≤ c ∧ c ≤ 90 by omega)]
      omega
    · rw [if_pos (show 97 ≤ c ∧ c ≤ 122 by omega),
        if_pos (show 65 ≤ c - 32 ∧ c - 32 ≤ 90 by omega)]
      omega
  rw [h2, h3]
  constructor
  · simp only [startsWithLower, List.headD_cons, Bool.and_eq_true, decide_eq_true_eq]
    exact hval
  · exact ⟨jsToLowerChar (jsToUpperChar c) :: pascalReplaceAux cs, rfl⟩

/-- C6, witness for the amended theorem at the concrete input `"a_b"`. -/
theorem toSchemaName_toPascalCase_roundtrip_witness :
    jsStr "a_b" = 97 :: jsStr "_b" ∧ isAsciiLetterChar 97 = true ∧
    isValidIdentifier (jsStr "a_b") = true ∧
    startsWithLower (toSchemaName (toPascalCase (jsStr "a_b"))) = true ∧
    jsStr "Schema" <:+ toSchemaName (toPascalCase (jsStr "a_b")) :=
  ⟨by decide, by decide, by decide,
    toSchemaName_toPascalCase_roundtrip (jsStr "a_b") 97 (jsStr "_b")
      (by decide) (by decide) (by decide)⟩

/-- C7: `getSafePropertyName` returns its argument unchanged exactly when the
argument matches the identifier grammar, and otherwise returns the argument
wrapped in exactly one pair of double quotes (code unit 34). -/
theorem getSafePropertyName_spec (name : JsString) :
    (getSafePropertyName name = name ↔ isValidIdentifier name = true) ∧
    (isValidIdentifier name = false →
      getSafePropertyName name = 34 :: (name ++ [34])) := by
  by_cases h : isValidIdentifier name = true
  · simp [getSafePropertyName, h]
  · have h2 : isValidIdentifier name = false := by
      revert h
      cases isValidIdentifier name <;> simp
    refine ⟨?_, fun _ => by simp [getSafePropertyName, h2]⟩
    simp only [getSafePropertyName, h2, Bool.false_eq_true, if_false, iff_false]
    intro heq
    have := congrArg List.length heq
    simp at this
    omega

/-- C7, witness: the non-identifier name `"special-name"` is quoted exactly
once. -/
theorem getSafePropertyName_witness :
    isValidIdentifier (jsStr "special-name") = false ∧
    getSafePropertyName (jsStr "special-name") = 34 :: (jsStr "special-name" ++ [34]) :=
  ⟨by decide, (getSafePropertyName_spec (jsStr "special-name")).2 (by decide)⟩

/-- C8: `getEmitter` returns the registered emitter, whose `library` field
equals the requested identifier, for every supported identifier; for any
other string it throws an error message that enumerates the full supported
set. -/
theorem getEmitter_spec :
    (∀ lib ∈ supportedValidators, ∃ e, getEmitter lib = Except.ok e ∧ e.library = lib) ∧
    (∀ s, s ∉ supportedValidators →
      getEmitter s = Except.error ("Unknown validator library: " ++ s ++
        ". Supported libraries: " ++ "zod, valibot, arktype")) := by
  constructor
  · intro lib hlib
    fin_cases hlib
    · exact ⟨zodEmitter, rfl, rfl⟩
    · exact ⟨valibotEmitter, rfl, rfl⟩
    · exact ⟨arktypeEmitter, rfl, rfl⟩
  · intro s hs
    simp only [supportedValidators, List.mem_cons, List.not_mem_nil, or_false,
      not_or] at hs
    obtain ⟨h1, h2, h3⟩ := hs
    have b1 : (s == "zod") = false := by simp [h1]
    have b2 : (s == "valibot") = false := by simp [h2]
    have b3 : (s == "arktype") = false := by simp [h3]
    have hlk : emitters.lookup s = none := by
      simp [emitters, List.lookup, b1, b2, b3]
    simp [getEmitter, hlk]
    rfl

/-- C8, witness: lookup succeeds at `"zod"` and fails with the enumerated
message at `"effect"`. -/
theorem getEmitter_spec_witness :
    ("zod" ∈ supportedValidators ∧ ∃ e, getEmitter "zod" = Except.ok e ∧ e.library = "zod") ∧
    ("effect" ∉ supportedValidators ∧
      getEmitter "effect" = Except.error ("Unknown validator library: " ++ "effect" ++
        ". Supported libraries: " ++ "zod, valibot, arktype")) :=
  ⟨⟨by decide, getEmitter_spec.1 "zod" (by decide)⟩,
   ⟨by decide, getEmitter_spec.2 "effect" (by decide)⟩⟩

/-- C9, counterexample: the identifier `"effect"` is not in the supported set
of the registry module — `isValidatorLibrary` rejects it, `supportedValidators`
does not contain it, and `getEmitter` throws on it — so the supported set is
not `{zod, valibot, arktype, effect}` as claimed. -/
theorem effect_not_supported :
    isValidatorLibrary "effect" = false ∧
    "effect" ∉ supportedValidators ∧
    getEmitter "effect" = Except.error ("Unknown validator library: effect" ++
      ". Supported libraries: " ++ "zod, valibot, arktype") := by
  refine ⟨by decide, by decide, rfl⟩

/-- C9, amended: the supported validator-library identifiers are exactly
`{zod, valibot, arktype}`: `isValidatorLibrary` accepts precisely these three
strings, `supportedValidators` lists exactly these three, and `getEmitter`
succeeds on each of them. -/
theorem supported_set_exactly_three :
    (∀ s, isValidatorLibrary s = true ↔ s ∈ ["zod", "valibot", "arktype"]) ∧
    supportedValidators = ["zod", "valibot", "arktype"] ∧
    (∀ lib ∈ supportedValidators, ∃ e, getEmitter lib = Except.ok e ∧ e.library = lib) := by
  refine ⟨?_, rfl, ?_⟩
  · intro s
    simp [isValidatorLibrary]
    tauto
  · intro lib hlib
    fin_cases hlib
    · exact ⟨zodEmitter, rfl, rfl⟩
    · exact ⟨valibotEmitter, rfl, rfl⟩
    · exact ⟨arktypeEmitter, rfl, rfl⟩

end Tangen

namespace Tangen

/-! ## The Schema IR data model (`generators/ir/types.ts`)

The IR type module itself is not among the provided sources; the variant set
and the per-variant fields below follow the `ir` builders of `ir/utils.ts`
(which construct each variant) and the data-model section of the
specification.  The optional `description` field carried by every variant is
omitted: no operation verified here reads it.  JavaScript numeric literal
values are modelled as `Int`; no verified operation computes with them. -/

/-- Literal values occurring in `literal` and `enum` nodes
(string | number | boolean). -/
inductive JsPrimValue : Type where
  | str (s : String)
  | num (n : Int)
  | bool (b : Bool)
deriving DecidableEq

mutual

/-- `SchemaIR`: the closed tagged union of IR node kinds. -/
inductive SchemaIR : Type where
  | string (format : Option String)
  | number (integer : Option Bool)
  | boolean
  | bigint
  | null
  | undefined
  | unknown
  | never
  | date
  | object (properties : PropList) (additionalProperties : AddlProps)
  | array (items : SchemaIR)
  | tuple (items : SchemaList)
  | record (keyType : SchemaIR) (valueType : SchemaIR)
  | enum (values : List JsPrimValue)
  | literal (value : JsPrimValue)
  | union (members : SchemaList)
  | intersection (members : SchemaList)
  | ref (name : String)
  | raw (code : String)

/-- The ordered property map of an `object` node: property name, property
schema, `required` flag, in insertion order. -/
inductive PropList : Type where
  | nil
  | cons (name : String) (schema : SchemaIR) (required : Bool) (rest : PropList)

/-- A list of IR nodes (`tuple` items, `union`/`intersection` members). -/
inductive SchemaList : Type where
  | nil
  | cons (head : SchemaIR) (tail : SchemaList)

/-- The `additionalProperties` field of an `object` node:
absent | boolean | a schema. -/
inductive AddlProps : Type where
  | notGiven
  | bool (b : Bool)
  | schema (s : SchemaIR)

end

/-- The plain list of schemas of a `SchemaList`. -/
def SchemaList.toList : SchemaList → List SchemaIR
  | .nil => []
  | .cons s rest => s :: rest.toList

/-- The plain list of property schemas of a `PropList`, in insertion order
(the order `Object.values` yields). -/
def PropList.schemas : PropList → List SchemaIR
  | .nil => []
  | .cons _ s _ rest => s :: rest.schemas

/-- The schema categories of `NamedSchemaIR` (from the data model). -/
inductive SchemaCategory : Type where
  | enum
  | input
  | response
  | params
  | fragment
  | component
  | variables
deriving DecidableEq

/-- `NamedSchemaIR`: a named, categorised top-level schema entry.  The
`dependencies` field is a JavaScript `Set<string>`, modelled as its
insertion-order duplicate-free list. -/
structure NamedSchemaIR : Type where
  name : String
  schema : SchemaIR
  dependencies : List String
  category : Option SchemaCategory

/-- `Set.prototype.add`: append the element unless already present. -/
def setAdd (deps : List String) (x : String) : List String :=
  if x ∈ deps then deps else deps ++ [x]

mutual

/-- The recursive `visit` of `extractDependencies` in `ir/utils.ts`, with the
accumulated `deps` set threaded explicitly.  `ref` adds the referenced name;
`object` visits each property schema in order and then a schema-valued
`additionalProperties`; `array` visits `items`; `tuple` visits the items in
order; `record` visits `keyType` then `valueType`; `union` and `intersection`
visit the members in order; every other kind adds nothing. -/
def extractVisit : SchemaIR → List String → List String
  | .ref n, deps => setAdd deps n
  | .object props addl, deps => extractVisitAddl addl (extractVisitProps props deps)
  | .array items, deps => extractVisit items deps
  | .tuple items, deps => extractVisitList items deps
  | .record k v, deps => extractVisit v (extractVisit k deps)
  | .union ms, deps => extractVisitList ms deps
  | .intersection ms, deps => extractVisitList ms deps
  | _, deps => deps

/-- Visit of the property schemas of an `object` node, in insertion order. -/
def extractVisitProps : PropList → List String → List String
  | .nil, deps => deps
  | .cons _ s _ rest, deps => extractVisitProps rest (extractVisit s deps)

/-- Visit of the elements of a schema list, in order. -/
def extractVisitList : SchemaList → List String → List String
  | .nil, deps => deps
  | .cons s rest, deps => extractVisitList rest (extractVisit s deps)

/-- Visit of `additionalProperties`: only a schema value (an object that is
truthy and of type `"object"`) is visited. -/
def extractVisitAddl : AddlProps → List String → List String
  | .schema s, deps => extractVisit s deps
  | _, deps => deps

end

/-- `extractDependencies` from `ir/utils.ts`: collect into an initially empty
set. -/
def extractDependencies (schema : SchemaIR) : List String :=
  extractVisit schema []

/-- `createNamedSchema` from `ir/utils.ts`: extract the dependencies and
delete the self-reference (`dependencies.delete(name)`). -/
def createNamedSchema (name : String) (schema : SchemaIR)
    (category : Option SchemaCategory) : NamedSchemaIR :=
  { name := name
    schema := schema
    dependencies := (extractDependencies schema).erase name
    category := category }

/-- Specification-side reachability: `RefReachable n s` holds exactly when a
`ref` node with name `n` is structurally reachable inside `s` through object
property schemas and a schema-valued `additionalProperties`, array items,
tuple items, record key and value types, and union/intersection members. -/
inductive RefReachable : String → SchemaIR → Prop where
  | ref (n : String) : RefReachable n (.ref n)
  | objectProp {n : String} {props : PropList} {addl : AddlProps} {s : SchemaIR} :
      s ∈ props.schemas → RefReachable n s → RefReachable n (.object props addl)
  | objectAddl {n : String} {props : PropList} {s : SchemaIR} :
      RefReachable n s → RefReachable n (.object props (.schema s))
  | arrayItems {n : String} {items : SchemaIR} :
      RefReachable n items → RefReachable n (.array items)
  | tupleItem {n : String} {items : SchemaList} {s : SchemaIR} :
      s ∈ items.toList → RefReachable n s → RefReachable n (.tuple items)
  | recordKey {n : String} {k v : SchemaIR} :
      RefReachable n k → RefReachable n (.record k v)
  | recordValue {n : String} {k v : SchemaIR} :
      RefReachable n v → RefReachable n (.record k v)
  | unionMember {n : String} {ms : SchemaList} {s : SchemaIR} :
      s ∈ ms.toList → RefReachable n s → RefReachable n (.union ms)
  | interMember {n : String} {ms : SchemaList} {s : SchemaIR} :
      s ∈ ms.toList → RefReachable n s → RefReachable n (.intersection ms)

/-- Membership through `setAdd`. -/
theorem mem_setAdd (deps : List String) (x n : String) :
    n ∈ setAdd deps x ↔ n ∈ deps ∨ n = x := by
  unfold setAdd
  split
  · rename_i h
    constructor
    · exact fun hn => Or.inl hn
    · rintro (hn | rfl)
      · exact hn
      · exact h
  · simp

/-- `setAdd` preserves freedom from duplicates. -/
theorem nodup_setAdd (deps : List String) (x : String) (h : deps.Nodup) :
    (setAdd deps x).Nodup := by
  unfold setAdd
  split
  · exact h
  · rename_i hx
    simpa using List.Nodup.append h (List.nodup_singleton x) (by simpa using hx)

mutual

/-- Membership in the dependency set accumulated by `extractVisit`. -/
theorem mem_extractVisit (s : SchemaIR) (acc : List String) (n : String) :
    n ∈ extractVisit s acc ↔ n ∈ acc ∨ RefReachable n s := by
  cases s with
  | ref m =>
    rw [show extractVisit (.ref m) acc = setAdd acc m from rfl, mem_setAdd]
    constructor
    · rintro (h | rfl)
      · exact Or.inl h
      · exact Or.inr (RefReachable.ref n)
    · rintro (h | h)
      · exact Or.inl h
      · cases h
        exact Or.inr rfl
  | object props addl =>
    rw [show extractVisit (.object props addl) acc =
          extractVisitAddl addl (extractVisitProps props acc) from rfl,
      mem_extractVisitAddl, mem_extractVisitProps]
    constructor
    · rintro ((h | ⟨s, hs, hr⟩) | ⟨s, rfl, hr⟩)
      · exact Or.inl h
      · exact Or.inr (RefReachable.objectProp hs hr)
      · exact Or.inr (RefReachable.objectAddl hr)
    · rintro (h | h)
      · exact Or.inl (Or.inl h)
      · cases h with
        | objectProp hs hr => exact Or.inl (Or.inr ⟨_, hs, hr⟩)
        | objectAddl hr => exact Or.inr ⟨_, rfl, hr⟩
  | array items =>
    rw [show extractVisit (.array items) acc = extractVisit items acc from rfl,
      mem_extractVisit items acc n]
    constructor
    · rintro (h | h)
      · exact Or.inl h
      · exact Or.inr (RefReachable.arrayItems h)
    · rintro (h | h)
      · exact Or.inl h
      · cases h with
        | arrayItems hr => exact Or.inr hr
  | tuple items =>
    rw [show extractVisit (.tuple items) acc = extractVisitList items acc from rfl,
      mem_extractVisitList]
    constructor
    · rintro (h | ⟨s, hs, hr⟩)
      · exact Or.inl h
      · exact Or.inr (RefReachable.tupleItem hs hr)
    · rintro (h | h)
      · exact Or.inl h
      · cases h with
        | tupleItem hs hr => exact Or.inr ⟨_, hs, hr⟩
  | record k v =>
    rw [show extractVisit (.record k v) acc = extractVisit v (extractVisit k acc) from rfl,
      mem_extractVisit v _ n, mem_extractVisit k acc n]
    constructor
    · rintro ((h | h) | h)
      · exact Or.inl h
      · exact Or.inr (RefReachable.recordKey h)
      · exact Or.inr (RefReachable.recordValue h)
    · rintro (h | h)
      · exact Or.inl (Or.inl h)
      · cases h with
        | recordKey hr => exact Or.inl (Or.inr hr)
        | recordValue hr => exact Or.inr hr
  | union ms =>
    rw [show extractVisit (.union ms) acc = extractVisitList ms acc from rfl,
      mem_extractVisitList]
    constructor
    · rintro (h | ⟨s, hs, hr⟩)
      · exact Or.inl h
      · exact Or.inr (RefReachable.unionMember hs hr)
    · rintro (h | h)
      · exact Or.inl h
      · cases h with
        | unionMember hs hr => exact Or.inr ⟨_, hs, hr⟩
  | intersection ms =>
    rw [show extractVisit (.intersection ms) acc = extractVisitList ms acc from rfl,
      mem_extractVisitList]
    constructor
    · rintro (h | ⟨s, hs, hr⟩)
      · exact Or.inl h
      · exact Or.inr (RefReachable.interMember hs hr)
    · rintro (h | h)
      · exact Or.inl h
      · cases h with
        | interMember hs hr => exact Or.inr ⟨_, hs, hr⟩
  | string fmt =>
    rw [show extractVisit (.string fmt) acc = acc from rfl]
    exact ⟨Or.inl, fun h => by rcases h with h | h; exact h; cases h⟩
  | number i =>
    rw [show extractVisit (.number i) acc = acc from rfl]
    exact ⟨Or.inl, fun h => by rcases h with h | h; exact h; cases h⟩
  | boolean =>
    rw [show extractVisit .boolean acc = acc from rfl]
    exact ⟨Or.inl, fun h => by rcases h with h | h; exact h; cases h⟩
  | bigint =>
    rw [show extractVisit .bigint acc = acc from rfl]
    exact ⟨Or.inl, fun h => by rcases h with h | h; exact h; cases h⟩
  | null =>
    rw [show extractVisit .null acc = acc from rfl]
    exact ⟨Or.inl, fun h => by rcases h with h | h; exact h; cases h⟩
  | undefined =>
    rw [show extractVisit .undefined acc = acc from rfl]
    exact ⟨Or.inl, fun h => by rcases h with h | h; exact h; cases h⟩
  | unknown =>
    rw [show extractVisit .unknown acc = acc from rfl]
    exact ⟨Or.inl, fun h => by rcases h with h | h; exact h; cases h⟩
  | never =>
    rw [show extractVisit .never acc = acc from rfl]
    exact ⟨Or.inl, fun h => by rcases h with h | h; exact h; cases h⟩
  | date =>
    rw [show extractVisit .date acc = acc from rfl]
    exact ⟨Or.inl, fun h => by rcases h with h | h; exact h; cases h⟩
  | enum vs =>
    rw [show extractVisit (.enum vs) acc = acc from rfl]
    exact ⟨Or.inl, fun h => by rcases h with h | h; exact h; cases h⟩
  | literal v =>
    rw [show extractVisit (.literal v) acc = acc from rfl]
    exact ⟨Or.inl, fun h => by rcases h with h | h; exact h; cases h⟩
  | raw code =>
    rw [show extractVisit (.raw code) acc = acc from rfl]
    exact ⟨Or.inl, fun h => by rcases h with h | h; exact h; cases h⟩

/-- Membership in the set accumulated over a property list. -/
theorem mem_extractVisitProps (props : PropList) (acc : List String) (n : String) :
    n ∈ extractVisitProps props acc ↔
      n ∈ acc ∨ ∃ s ∈ props.schemas, RefReachable n s := by
  cases props with
  | nil =>
    rw [show extractVisitProps .nil acc = acc from rfl]
    simp [PropList.schemas]
  | cons pn s req rest =>
    rw [show extractVisitProps (.cons pn s req rest) acc =
          extractVisitProps rest (extractVisit s acc) from rfl,
      mem_extractVisitProps rest _ n, mem_extractVisit s acc n]
    simp only [PropList.schemas, List.mem_cons]
    constructor
    · rintro ((h | h) | ⟨t, ht, hr⟩)
      · exact Or.inl h
      · exact Or.inr ⟨s, Or.inl rfl, h⟩
      · exact Or.inr ⟨t, Or.inr ht, hr⟩
    · rintro (h | ⟨t, ht | ht, hr⟩)
      · exact Or.inl (Or.inl h)
      · subst ht
        exact Or.inl (Or.inr hr)
      · exact Or.inr ⟨t, ht, hr⟩

/-- Membership in the set accumulated over a schema list. -/
theorem mem_extractVisitList (ms : SchemaList) (acc : List String) (n : String) :
    n ∈ extractVisitList ms acc ↔
      n ∈ acc ∨ ∃ s ∈ ms.toList, RefReachable n s := by
  cases ms with
  | nil =>
    rw [show extractVisitList .nil acc = acc from rfl]
    simp [SchemaList.toList]
  | cons s rest =>
    rw [show extractVisitList (.cons s rest) acc =
          extractVisitList rest (extractVisit s acc) from rfl,
      mem_extractVisitList rest _ n, mem_extractVisit s acc n]
    simp only [SchemaList.toList, List.mem_cons]
    constructor
    · rintro ((h | h) | ⟨t, ht, hr⟩)
      · exact Or.inl h
      · exact Or.inr ⟨s, Or.inl rfl, h⟩
      · exact Or.inr ⟨t, Or.inr ht, hr⟩
    · rintro (h | ⟨t, ht | ht, hr⟩)
      · exact Or.inl (Or.inl h)
      · subst ht
        exact Or.inl (Or.inr hr)
      · exact Or.inr ⟨t, ht, hr⟩

/-- Membership in the set accumulated through `additionalProperties`. -/
theorem mem_extractVisitAddl (addl : AddlProps) (acc : List String) (n : String) :
    n ∈ extractVisitAddl addl acc ↔
      n ∈ acc ∨ ∃ s, addl = .schema s ∧ RefReachable n s := by
  cases addl with
  | notGiven =>
    rw [show extractVisitAddl .notGiven acc = acc from rfl]
    simp
  | bool b =>
    rw [show extractVisitAddl (.bool b) acc = acc from rfl]
    simp
  | schema s =>
    rw [show extractVisitAddl (.schema s) acc = extractVisit s acc from rfl,
      mem_extractVisit s acc n]
    constructor
    · rintro (h | h)
      · exact Or.inl h
      · exact Or.inr ⟨s, rfl, h⟩
    · rintro (h | ⟨t, ht, hr⟩)
      · exact Or.inl h
      · cases ht
        exact Or.inr hr

end

mutual

/-- `extractVisit` preserves freedom from duplicates. -/
theorem nodup_extractVisit (s : SchemaIR) (acc : List String) (h : acc.Nodup) :
    (extractVisit s acc).Nodup := by
  cases s with
  | ref m => exact nodup_setAdd acc m h
  | object props addl => exact nodup_extractVisitAddl addl _ (nodup_extractVisitProps props acc h)
  | array items => exact nodup_extractVisit items acc h
  | tuple items => exact nodup_extractVisitList items acc h
  | record k v => exact nodup_extractVisit v _ (nodup_extractVisit k acc h)
  | union ms => exact nodup_extractVisitList ms acc h
  | intersection ms => exact nodup_extractVisitList ms acc h
  | string fmt => exact h
  | number i => exact h
  | boolean => exact h
  | bigint => exact h
  | null => exact h
  | undefined => exact h
  | unknown => exact h
  | never => exact h
  | date => exact h
  | enum vs => exact h
  | literal v => exact h
  | raw code => exact h

/-- `extractVisitProps` preserves freedom from duplicates. -/
theorem nodup_extractVisitProps (props : PropList) (acc : List String) (h : acc.Nodup) :
    (extractVisitProps props acc).Nodup := by
  cases props with
  | nil => exact h
  | cons pn s req rest => exact nodup_extractVisitProps rest _ (nodup_extractVisit s acc h)

/-- `extractVisitList` preserves freedom from duplicates. -/
theorem nodup_extractVisitList (ms : SchemaList) (acc : List String) (h : acc.Nodup) :
    (extractVisitList ms acc).Nodup := by
  cases ms with
  | nil => exact h
  | cons s rest => exact nodup_extractVisitList rest _ (nodup_extractVisit s acc h)

/-- `extractVisitAddl` preserves freedom from duplicates. -/
theorem nodup_extractVisitAddl (addl : AddlProps) (acc : List String) (h : acc.Nodup) :
    (extractVisitAddl addl acc).Nodup := by
  cases addl with
  | notGiven => exact h
  | bool b => exact h
  | schema s => exact nodup_extractVisit s acc h

end

/-- The dependency list produced by `extractDependencies` has no
duplicates. -/
theorem nodup_extractDependencies (schema : SchemaIR) :
    (extractDependencies schema).Nodup :=
  nodup_extractVisit schema [] List.nodup_nil

/-- Membership in `extractDependencies` is reachability of a `ref`. -/
theorem mem_extractDependencies (schema : SchemaIR) (n : String) :
    n ∈ extractDependencies schema ↔ RefReachable n schema := by
  rw [extractDependencies, mem_extractVisit]
  simp

/-- C4: the `dependencies` set of `createNamedSchema name schema` is exactly
the set of names of `ref` nodes structurally reachable within `schema`
(through object property schemas and a schema-valued `additionalProperties`,
array items, tuple items, record key and value types, and union/intersection
members), minus the entry itself. -/
theorem createNamedSchema_dependencies_spec (name : String) (schema : SchemaIR)
    (category : Option SchemaCategory) (n : String) :
    n ∈ (createNamedSchema name schema category).dependencies ↔
      (RefReachable n schema ∧ n ≠ name) := by
  show n ∈ (extractDependencies schema).erase name ↔ _
  rw [List.Nodup.mem_erase_iff (nodup_extractDependencies schema),
    mem_extractDependencies]
  tauto

end Tangen

namespace Tangen

/-! ## Topological sort (`topologicalSortSchemas` in `ir/utils.ts`) -/

/-- Lookup in the `schemaMap` that `topologicalSortSchemas` builds with
`schemaMap.set(schema.name, schema)` over the input in order: the map holds,
for each name, the value of the last `set` call, i.e. the last input entry
bearing that name. -/
def schemaMapGet (schemas : List NamedSchemaIR) (n : String) : Option NamedSchemaIR :=
  match schemas with
  | [] => none
  | s :: rest =>
    match schemaMapGet rest n with
    | some r => some r
    | none => if s.name = n then some s else none

/-- The mutable state of `topologicalSortSchemas`: the `result` array, the
`visited` set and the `visiting` set (both in insertion order). -/
structure SortState : Type where
  result : List NamedSchemaIR
  visited : List String
  visiting : List String

/-- The recursive `visit` of `topologicalSortSchemas`.  Explicit fuel bounds
the recursion depth; each nested call strictly grows the `visiting` set with
a distinct key of `schemaMap`, so any fuel exceeding the number of distinct
names behaves as the unbounded JavaScript recursion (the invariant lemmas
below prove the fuel-exhausted branch unreachable for the fuel used by
`topologicalSortSchemas`).  Already-visited and currently-in-progress names
return immediately (the latter is the silent cycle tolerance), unknown names
return immediately, and otherwise the dependencies present in the map are
visited first, after which the entry is appended to the result. -/
def visit (schemas : List NamedSchemaIR) : Nat → String → SortState → SortState
  | 0, _, st => st
  | fuel + 1, name, st =>
    if name ∈ st.visited then st
    else if name ∈ st.visiting then st
    else
      match schemaMapGet schemas name with
      | none => st
      | some schema =>
        let st1 : SortState := ⟨st.result, st.visited, st.visiting ++ [name]⟩
        let st2 := schema.dependencies.foldl
          (fun acc dep =>
            if (schemaMapGet schemas dep).isSome then visit schemas fuel dep acc
            else acc) st1
        ⟨st2.result ++ [schema], st2.visited ++ [name], st2.visiting.erase name⟩

/-- `topologicalSortSchemas` from `ir/utils.ts`: visit every input entry in
order, starting from the empty state, and return the accumulated result. -/
def topologicalSortSchemas (schemas : List NamedSchemaIR) : List NamedSchemaIR :=
  (schemas.foldl (fun st s => visit schemas (schemas.length + 1) s.name st)
    ⟨[], [], []⟩).result

/-- A dependency edge between names: the map entry of `x` lists `y` among its
dependencies. -/
def DepEdge (schemas : List NamedSchemaIR) (x y : String) : Prop :=
  ∃ s, schemaMapGet schemas x = some s ∧ y ∈ s.dependencies

/-- A non-empty chain of dependency edges; `DepPath schemas x y` says the
entry named `x` depends, directly or transitively, on the name `y`. -/
inductive DepPath (schemas : List NamedSchemaIR) : String → String → Prop where
  | single {x y : String} : DepEdge schemas x y → DepPath schemas x y
  | cons {x y z : String} : DepEdge schemas x y → DepPath schemas y z → DepPath schemas x z

/-- A path extended by one edge at its end is a path. -/
theorem DepPath.snoc {schemas : List NamedSchemaIR} {x y z : String}
    (p : DepPath schemas x y) (e : DepEdge schemas y z) : DepPath schemas x z := by
  induction p with
  | single e0 => exact DepPath.cons e0 (DepPath.single e)
  | cons e0 _ ih => exact DepPath.cons e0 (ih e)

/-- The value found under a name bears that name. -/
theorem schemaMapGet_name {schemas : List NamedSchemaIR} {n : String}
    {e : NamedSchemaIR} (h : schemaMapGet schemas n = some e) : e.name = n := by
  induction schemas with
  | nil => simp [schemaMapGet] at h
  | cons s rest ih =>
    rw [schemaMapGet] at h
    cases hr : schemaMapGet rest n with
    | some r =>
      rw [hr] at h
      cases h
      exact ih hr
    | none =>
      rw [hr] at h
      by_cases hs : s.name = n
      · rw [if_pos hs] at h
        cases h
        exact hs
      · rw [if_neg hs] at h
        cases h

/-- The value found under a name is an input entry. -/
theorem schemaMapGet_mem {schemas : List NamedSchemaIR} {n : String}
    {e : NamedSchemaIR} (h : schemaMapGet schemas n = some e) : e ∈ schemas := by
  induction schemas with
  | nil => simp [schemaMapGet] at h
  | cons s rest ih =>
    rw [schemaMapGet] at h
    cases hr : schemaMapGet rest n with
    | some r =>
      rw [hr] at h
      cases h
      exact List.mem_cons_of_mem s (ih hr)
    | none =>
      rw [hr] at h
      by_cases hs : s.name = n
      · rw [if_pos hs] at h
        cases h
        exact List.mem_cons_self _ _
      · rw [if_neg hs] at h
        cases h

/-- A name is in the map exactly when some input entry bears it. -/
theorem schemaMapGet_isSome_iff (schemas : List NamedSchemaIR) (n : String) :
    (schemaMapGet schemas n).isSome = true ↔ n ∈ schemas.map NamedSchemaIR.name := by
  induction schemas with
  | nil => simp [schemaMapGet]
  | cons s rest ih =>
    rw [schemaMapGet]
    simp only [List.map_cons, List.mem_cons]
    cases hr : schemaMapGet rest n with
    | some r =>
      rw [hr] at ih
      have hm : n ∈ rest.map NamedSchemaIR.name := by simpa using ih
      simp [hm]
    | none =>
      rw [hr] at ih
      have hm : ¬ n ∈ rest.map NamedSchemaIR.name := by simpa using ih
      by_cases hs : s.name = n
      · simp [hs]
      · simp only [if_neg hs, Option.isSome_none, Bool.false_eq_true, false_iff, not_or]
        exact ⟨fun h => hs h.symm, hm⟩

/-- Under pairwise-distinct names, the map finds each input entry under its
own name. -/
theorem schemaMapGet_self {schemas : List NamedSchemaIR}
    (hn : (schemas.map NamedSchemaIR.name).Nodup) {s : NamedSchemaIR}
    (hs : s ∈ schemas) : schemaMapGet schemas s.name = some s := by
  induction schemas with
  | nil => cases hs
  | cons a rest ih =>
    simp only [List.map_cons, List.nodup_cons] at hn
    rcases List.mem_cons.mp hs with rfl | hs2
    · have hnone : schemaMapGet rest s.name = none := by
        cases ho : schemaMapGet rest s.name with
        | none => rfl
        | some r =>
          exfalso
          have : s.name ∈ rest.map NamedSchemaIR.name :=
            (schemaMapGet_isSome_iff rest s.name).mp (by simp [ho])
          exact hn.1 this
      rw [schemaMapGet, hnone]
      simp
    · rw [schemaMapGet, ih hn.2 hs2]

/-- The map lookup returns the last input entry bearing the name. -/
theorem schemaMapGet_eq_filter_getLast (schemas : List NamedSchemaIR) (n : String) :
    schemaMapGet schemas n = (schemas.filter (fun s => s.name = n)).getLast? := by
  induction schemas with
  | nil => simp [schemaMapGet]
  | cons s rest ih =>
    rw [schemaMapGet, ih]
    by_cases hs : s.name = n
    · rw [List.filter_cons_of_pos (by simp [hs])]
      cases hl : rest.filter (fun s => s.name = n) with
      | nil => simp [hs]
      | cons x l2 =>
        cases hr : (x :: l2).getLast? with
        | none =>
          exfalso
          have h0 := List.getLast?_eq_none_iff.mp hr
          cases h0
        | some r => simp [List.getLast?_cons_cons, hr]
    · rw [List.filter_cons_of_neg (by simp [hs])]
      cases hg : (rest.filter (fun s => s.name = n)).getLast? with
      | some r => simp
      | none => simp [hs]

end Tangen

namespace Tangen

/-! ## Invariants of the depth-first sort

`SortInv` collects the facts preserved by every `visit` call; the master
lemmas below establish them together with the postconditions needed by the
claims: `visit` leaves `visiting` unchanged, only appends to `result`,
records in `visited` exactly the names of the emitted entries, visits the
requested key unless it is a cycle member currently in progress, and emits an
entry only after each of its mapped dependencies is either already emitted or
an in-progress ancestor (hence reachable back from the entry). -/

/-- The loop over `schema.dependencies` inside `visit`
(`for (const dep of schema.dependencies) if (schemaMap.has(dep)) visit(dep)`). -/
def depsFold (schemas : List NamedSchemaIR) (fuel : Nat) (deps : List String)
    (st : SortState) : SortState :=
  deps.foldl
    (fun acc dep =>
      if (schemaMapGet schemas dep).isSome then visit schemas fuel dep acc
      else acc) st

/-- The number of distinct input names, i.e. the size of `schemaMap`. -/
def keyCount (schemas : List NamedSchemaIR) : Nat :=
  ((schemas.map NamedSchemaIR.name).dedup).length

/-- State invariant of `topologicalSortSchemas`. -/
structure SortInv (schemas : List NamedSchemaIR) (st : SortState) : Prop where
  visited_eq : st.visited = st.result.map NamedSchemaIR.name
  visited_nodup : st.visited.Nodup
  result_mapGet : ∀ e ∈ st.result, schemaMapGet schemas e.name = some e
  visiting_nodup : st.visiting.Nodup
  visiting_keys : ∀ n ∈ st.visiting, n ∈ schemas.map NamedSchemaIR.name
  visiting_fresh : ∀ n ∈ st.visiting, n ∉ st.visited
  ordered : ∀ l1 a l2, st.result = l1 ++ a :: l2 → ∀ dep ∈ a.dependencies,
    (schemaMapGet schemas dep).isSome = true →
    dep ∈ l1.map NamedSchemaIR.name ∨ DepPath schemas dep a.name

/-- Unfolding: fuel 0 returns the state unchanged. -/
theorem visit_zero (schemas : List NamedSchemaIR) (name : String) (st : SortState) :
    visit schemas 0 name st = st := rfl

/-- Unfolding: an already-visited name returns immediately. -/
theorem visit_visited (schemas : List NamedSchemaIR) (fuel : Nat) (name : String)
    (st : SortState) (h1 : name ∈ st.visited) :
    visit schemas (fuel + 1) name st = st := by
  simp [visit, h1]

/-- Unfolding: an in-progress name (a cycle) returns immediately. -/
theorem visit_visiting (schemas : List NamedSchemaIR) (fuel : Nat) (name : String)
    (st : SortState) (h1 : name ∉ st.visited) (h2 : name ∈ st.visiting) :
    visit schemas (fuel + 1) name st = st := by
  simp [visit, h1, h2]

/-- Unfolding: a name absent from the map returns immediately. -/
theorem visit_mapNone (schemas : List NamedSchemaIR) (fuel : Nat) (name : String)
    (st : SortState) (h1 : name ∉ st.visited) (h2 : name ∉ st.visiting)
    (hmap : schemaMapGet schemas name = none) :
    visit schemas (fuel + 1) name st = st := by
  simp [visit, h1, h2, hmap]

/-- Unfolding: the productive case marks the name in progress, folds over the
dependencies, then unmarks it, records it visited and appends its entry. -/
theorem visit_succ_eq (schemas : List NamedSchemaIR) (fuel : Nat) (name : String)
    (st : SortState) (schema : NamedSchemaIR) (h1 : name ∉ st.visited)
    (h2 : name ∉ st.visiting) (hmap : schemaMapGet schemas name = some schema) :
    visit schemas (fuel + 1) name st =
      ⟨(depsFold schemas fuel schema.dependencies
          ⟨st.result, st.visited, st.visiting ++ [name]⟩).result ++ [schema],
       (depsFold schemas fuel schema.dependencies
          ⟨st.result, st.visited, st.visiting ++ [name]⟩).visited ++ [name],
       (depsFold schemas fuel schema.dependencies
          ⟨st.result, st.visited, st.visiting ++ [name]⟩).visiting.erase name⟩ := by
  simp [visit, h1, h2, hmap, depsFold]

/-- Splitting an append-with-middle against an append-of-singleton. -/
theorem append_cons_eq_append_singleton {α : Type} {l1 l2 r : List α} {a x : α}
    (h : l1 ++ a :: l2 = r ++ [x]) :
    (l1 = r ∧ a = x ∧ l2 = []) ∨ ∃ l3, l2 = l3 ++ [x] ∧ r = l1 ++ a :: l3 := by
  rcases List.eq_nil_or_concat l2 with rfl | ⟨l3, y, rfl⟩
  · left
    have h2 : l1 ++ [a] = r ++ [x] := h
    obtain ⟨he1, he2⟩ := List.append_inj' h2 rfl
    cases he2
    exact ⟨he1, rfl, rfl⟩
  · right
    have h2 : (l1 ++ a :: l3) ++ [y] = r ++ [x] := by
      rw [← h]
      simp
    obtain ⟨he1, he2⟩ := List.append_inj' h2 rfl
    cases he2
    exact ⟨l3, by simp, he1.symm⟩

/-- Visited names extend along result extension. -/
theorem visited_extend {schemas : List NamedSchemaIR} {st st2 : SortState}
    (h : SortInv schemas st) (h2 : SortInv schemas st2) {t : List NamedSchemaIR}
    (ht : st2.result = st.result ++ t) :
    st2.visited = st.visited ++ t.map NamedSchemaIR.name := by
  rw [h2.visited_eq, ht, List.map_append, h.visited_eq]

/-- The statement of the master lemma for `visit`, at a given fuel. -/
def VisitMasterStmt (schemas : List NamedSchemaIR) (fuel : Nat) : Prop :=
  ∀ (name : String) (st : SortState),
    keyCount schemas + 1 ≤ fuel + st.visiting.length →
    SortInv schemas st →
    (∀ n ∈ st.visiting, DepPath schemas n name) →
    SortInv schemas (visit schemas fuel name st) ∧
    (visit schemas fuel name st).visiting = st.visiting ∧
    (∃ t, (visit schemas fuel name st).result = st.result ++ t) ∧
    ((schemaMapGet schemas name).isSome = true →
      name ∈ (visit schemas fuel name st).visited ∨ name ∈ st.visiting) ∧
    (∀ n ∈ (visit schemas fuel name st).visited,
      n ∈ st.visited ∨ n = name ∨ DepPath schemas name n)

/-- Master lemma for the dependency loop, given the master statement for
`visit` at the same fuel. -/
theorem visitDeps_master (schemas : List NamedSchemaIR) (fuel : Nat)
    (ih : VisitMasterStmt schemas fuel) :
    ∀ (deps : List String) (st : SortState),
    keyCount schemas + 1 ≤ fuel + st.visiting.length →
    SortInv schemas st →
    (∀ dep ∈ deps, ∀ n ∈ st.visiting, DepPath schemas n dep) →
    SortInv schemas (depsFold schemas fuel deps st) ∧
    (depsFold schemas fuel deps st).visiting = st.visiting ∧
    (∃ t, (depsFold schemas fuel deps st).result = st.result ++ t) ∧
    (∀ dep ∈ deps, (schemaMapGet schemas dep).isSome = true →
      dep ∈ (depsFold schemas fuel deps st).visited ∨ dep ∈ st.visiting) ∧
    (∀ n ∈ (depsFold schemas fuel deps st).visited,
      n ∈ st.visited ∨ ∃ dep ∈ deps, n = dep ∨ DepPath schemas dep n) := by
  intro deps
  induction deps with
  | nil =>
    intro st hfuel hinv hpre
    refine ⟨hinv, rfl, ⟨[], by simp [depsFold]⟩, by simp, fun n hn => Or.inl hn⟩
  | cons dep deps ih2 =>
    intro st hfuel hinv hpre
    have hstep : depsFold schemas fuel (dep :: deps) st =
        depsFold schemas fuel deps
          (if (schemaMapGet schemas dep).isSome then visit schemas fuel dep st
           else st) := by
      simp [depsFold]
    by_cases hd : (schemaMapGet schemas dep).isSome = true
    · obtain ⟨hinv1, hvis1, ⟨t1, hres1⟩, hp4, hp5⟩ :=
        ih dep st hfuel hinv (fun n hn => hpre dep (List.mem_cons_self _ _) n hn)
      have hstep2 : depsFold schemas fuel (dep :: deps) st =
          depsFold schemas fuel deps (visit schemas fuel dep st) := by
        rw [hstep, if_pos hd]
      have hfuel1 : keyCount schemas + 1 ≤ fuel + (visit schemas fuel dep st).visiting.length := by
        rw [hvis1]
        exact hfuel
      have hpre1 : ∀ d ∈ deps, ∀ n ∈ (visit schemas fuel dep st).visiting,
          DepPath schemas n d := by
        intro d hdm n hn
        rw [hvis1] at hn
        exact hpre d (List.mem_cons_of_mem _ hdm) n hn
      obtain ⟨hinv2, hvis2, ⟨t2, hres2⟩, hc2, hn2⟩ :=
        ih2 (visit schemas fuel dep st) hfuel1 hinv1 hpre1
      rw [hstep2]
      have hvmono : (visit schemas fuel dep st).visited ⊆
          (depsFold schemas fuel deps (visit schemas fuel dep st)).visited := by
        rw [visited_extend hinv1 hinv2 hres2]
        exact fun x hx => List.mem_append_left _ hx
      refine ⟨hinv2, hvis2.trans hvis1, ⟨t1 ++ t2, ?_⟩, ?_, ?_⟩
      · rw [hres2, hres1, List.append_assoc]
      · intro d hdm hds
        rcases List.mem_cons.mp hdm with rfl | hdm2
        · rcases hp4 hds with hin | hin
          · exact Or.inl (hvmono hin)
          · exact Or.inr hin
        · rcases hc2 d hdm2 hds with hin | hin
          · exact Or.inl hin
          · rw [hvis1] at hin
            exact Or.inr hin
      · intro n hn
        rcases hn2 n hn with hin | ⟨d, hdm2, hcase⟩
        · rcases hp5 n hin with hin2 | hin2
          · exact Or.inl hin2
          · exact Or.inr ⟨dep, List.mem_cons_self _ _, hin2⟩
        · exact Or.inr ⟨d, List.mem_cons_of_mem _ hdm2, hcase⟩
    · have hstep2 : depsFold schemas fuel (dep :: deps) st =
          depsFold schemas fuel deps st := by
        rw [hstep, if_neg hd]
      obtain ⟨hinv2, hvis2, hres2, hc2, hn2⟩ :=
        ih2 st hfuel hinv (fun d hdm n hn => hpre d (List.mem_cons_of_mem _ hdm) n hn)
      rw [hstep2]
      refine ⟨hinv2, hvis2, hres2, ?_, ?_⟩
      · intro d hdm hds
        rcases List.mem_cons.mp hdm with rfl | hdm2
        · exact absurd hds hd
        · exact hc2 d hdm2 hds
      · intro n hn
        rcases hn2 n hn with hin | ⟨d, hdm2, hcase⟩
        · exact Or.inl hin
        · exact Or.inr ⟨d, List.mem_cons_of_mem _ hdm2, hcase⟩

end Tangen

namespace Tangen

/-- Master lemma: the `visit` postconditions hold at every fuel, given enough
fuel relative to the `visiting` stack (the fuel-exhausted case is then
unreachable, because `visiting` holds pairwise-distinct map keys). -/
theorem visit_master (schemas : List NamedSchemaIR) :
    ∀ fuel : Nat, VisitMasterStmt schemas fuel := by
  intro fuel
  induction fuel with
  | zero =>
    intro name st hfuel hinv hpre
    exfalso
    have hlen : st.visiting.length ≤ keyCount schemas := by
      have hsub : ∀ x ∈ st.visiting, x ∈ (schemas.map NamedSchemaIR.name).dedup :=
        fun x hx => List.mem_dedup.mpr (hinv.visiting_keys x hx)
      exact (List.subperm_of_subset hinv.visiting_nodup hsub).length_le
    omega
  | succ fuel ihf =>
    intro name st hfuel hinv hpre
    by_cases h1 : name ∈ st.visited
    · rw [visit_visited schemas fuel name st h1]
      exact ⟨hinv, rfl, ⟨[], by simp⟩, fun _ => Or.inl h1, fun n hn => Or.inl hn⟩
    by_cases h2 : name ∈ st.visiting
    · rw [visit_visiting schemas fuel name st h1 h2]
      exact ⟨hinv, rfl, ⟨[], by simp⟩, fun _ => Or.inr h2, fun n hn => Or.inl hn⟩
    cases hmap : schemaMapGet schemas name with
    | none =>
      rw [visit_mapNone schemas fuel name st h1 h2 hmap]
      refine ⟨hinv, rfl, ⟨[], by simp⟩, ?_, fun n hn => Or.inl hn⟩
      intro hsome
      simp at hsome
    | some schema =>
      have hname : schema.name = name := schemaMapGet_name hmap
      have hkey : name ∈ schemas.map NamedSchemaIR.name :=
        (schemaMapGet_isSome_iff schemas name).mp (by simp [hmap])
      have hinv1 : SortInv schemas ⟨st.result, st.visited, st.visiting ++ [name]⟩ := by
        refine ⟨hinv.visited_eq, hinv.visited_nodup, hinv.result_mapGet, ?_, ?_, ?_,
          hinv.ordered⟩
        · refine List.Nodup.append hinv.visiting_nodup (List.nodup_singleton _) ?_
          intro x hx hx2
          rw [List.mem_singleton.mp hx2] at hx
          exact h2 hx
        · intro n hn
          rcases List.mem_append.mp hn with hn2 | hn2
          · exact hinv.visiting_keys n hn2
          · rw [List.mem_singleton.mp hn2]
            exact hkey
        · intro n hn
          rcases List.mem_append.mp hn with hn2 | hn2
          · exact hinv.visiting_fresh n hn2
          · rw [List.mem_singleton.mp hn2]
            exact h1
      have hfuel1 : keyCount schemas + 1 ≤
          fuel + (st.visiting ++ [name]).length := by
        rw [List.length_append, List.length_singleton]
        omega
      have hpre1 : ∀ dep ∈ schema.dependencies,
          ∀ n ∈ (⟨st.result, st.visited, st.visiting ++ [name]⟩ : SortState).visiting,
          DepPath schemas n dep := by
        intro dep hdep n hn
        rcases List.mem_append.mp hn with hn2 | hn2
        · exact (hpre n hn2).snoc ⟨schema, hmap, hdep⟩
        · rw [List.mem_singleton.mp hn2]
          exact DepPath.single ⟨schema, hmap, hdep⟩
      obtain ⟨hinv2, hvis2, ⟨t2, hres2⟩, hcov2, hnew2⟩ :=
        visitDeps_master schemas fuel ihf schema.dependencies
          ⟨st.result, st.visited, st.visiting ++ [name]⟩ hfuel1 hinv1 hpre1
      rw [visit_succ_eq schemas fuel name st schema h1 h2 hmap]
      have hname_in_visiting2 : name ∈ (depsFold schemas fuel schema.dependencies
          ⟨st.result, st.visited, st.visiting ++ [name]⟩).visiting := by
        rw [hvis2]
        exact List.mem_append_right _ (List.mem_singleton_self _)
      have hname_notin_visited2 : name ∉ (depsFold schemas fuel schema.dependencies
          ⟨st.result, st.visited, st.visiting ++ [name]⟩).visited :=
        hinv2.visiting_fresh name hname_in_visiting2
      have hvx : (depsFold schemas fuel schema.dependencies
          ⟨st.result, st.visited, st.visiting ++ [name]⟩).visiting.erase name =
          st.visiting := by
        rw [hvis2, List.erase_append_right _ h2]
        simp
      have hEdge : ∀ dep ∈ schema.dependencies, DepEdge schemas name dep :=
        fun dep hdep => ⟨schema, hmap, hdep⟩
      refine ⟨?_, hvx, ⟨t2 ++ [schema], ?_⟩, fun _ => Or.inl ?_, ?_⟩
      · refine ⟨?_, ?_, ?_, ?_, ?_, ?_, ?_⟩
        · show _ ++ [name] = (_ ++ [schema]).map NamedSchemaIR.name
          rw [List.map_append, ← hinv2.visited_eq]
          simp [hname]
        · exact List.Nodup.append hinv2.visited_nodup (List.nodup_singleton _)
            (fun x hx hx2 => by
              rw [List.mem_singleton.mp hx2] at hx
              exact hname_notin_visited2 hx)
        · intro e he
          rcases List.mem_append.mp he with he2 | he2
          · exact hinv2.result_mapGet e he2
          · rw [List.mem_singleton.mp he2, hname]
            exact hmap
        · show ((depsFold schemas fuel schema.dependencies
            ⟨st.result, st.visited, st.visiting ++ [name]⟩).visiting.erase name).Nodup
          rw [hvx]
          exact hinv.visiting_nodup
        · intro n hn
          rw [hvx] at hn
          exact hinv.visiting_keys n hn
        · intro n hn
          rw [hvx] at hn
          have hn2 : n ∈ (depsFold schemas fuel schema.dependencies
              ⟨st.result, st.visited, st.visiting ++ [name]⟩).visiting := by
            rw [hvis2]
            exact List.mem_append_left _ hn
          have hfresh := hinv2.visiting_fresh n hn2
          intro hmem
          rcases List.mem_append.mp hmem with hm | hm
          · exact hfresh hm
          · rw [List.mem_singleton.mp hm] at hn
            exact h2 hn
        · intro l1 a l2 hdecomp dep hdep hdsome
          rcases append_cons_eq_append_singleton hdecomp.symm with
            ⟨hl1, ha, hl2⟩ | ⟨l3, hl2, hr⟩
          · rw [hl1, ha, hname]
            rw [ha] at hdep
            rcases hcov2 dep hdep hdsome with hin | hin
            · left
              rw [hinv2.visited_eq] at hin
              exact hin
            · rcases List.mem_append.mp hin with hin2 | hin2
              · exact Or.inr (hpre dep hin2)
              · rw [List.mem_singleton.mp hin2] at hdep ⊢
                exact Or.inr (DepPath.single ⟨schema, hmap, hdep⟩)
          · exact hinv2.ordered l1 a l3 hr dep hdep hdsome
      · rw [hres2]
        show (st.result ++ t2) ++ [schema] = st.result ++ (t2 ++ [schema])
        rw [List.append_assoc]
      · exact List.mem_append_right _ (List.mem_singleton_self _)
      · intro n hn
        rcases List.mem_append.mp hn with hn2 | hn2
        · rcases hnew2 n hn2 with hin | ⟨dep, hdep, hcase⟩
          · exact Or.inl hin
          · rcases hcase with rfl | hpath
            · exact Or.inr (Or.inr (DepPath.single (hEdge n hdep)))
            · exact Or.inr (Or.inr (DepPath.cons (hEdge dep hdep) hpath))
        · exact Or.inr (Or.inl (List.mem_singleton.mp hn2))

end Tangen

namespace Tangen

/-- The empty starting state satisfies the invariant. -/
theorem sortInv_init (schemas : List NamedSchemaIR) :
    SortInv schemas ⟨[], [], []⟩ := by
  refine ⟨rfl, List.nodup_nil, by simp, List.nodup_nil, by simp, by simp, ?_⟩
  intro l1 a l2 h
  exact absurd h (by simp)

/-- Master lemma for the top-level loop of `topologicalSortSchemas` over a
prefix of the input, starting from a state with an empty `visiting` stack. -/
theorem sortFold_master (schemas : List NamedSchemaIR) :
    ∀ (pre : List NamedSchemaIR) (st : SortState),
    (∀ s ∈ pre, s ∈ schemas) →
    SortInv schemas st →
    st.visiting = [] →
    SortInv schemas (pre.foldl
      (fun acc s => visit schemas (schemas.length + 1) s.name acc) st) ∧
    (pre.foldl (fun acc s => visit schemas (schemas.length + 1) s.name acc) st).visiting
      = [] ∧
    (∃ t, (pre.foldl (fun acc s => visit schemas (schemas.length + 1) s.name acc)
      st).result = st.result ++ t) ∧
    (∀ s ∈ pre, s.name ∈ (pre.foldl
      (fun acc s => visit schemas (schemas.length + 1) s.name acc) st).visited) ∧
    (∀ n ∈ (pre.foldl (fun acc s => visit schemas (schemas.length + 1) s.name acc)
        st).visited,
      n ∈ st.visited ∨ ∃ p ∈ pre, n = p.name ∨ DepPath schemas p.name n) := by
  intro pre
  induction pre with
  | nil =>
    intro st hsub hinv hvis
    exact ⟨hinv, hvis, ⟨[], by simp⟩, by simp, fun n hn => Or.inl hn⟩
  | cons p pre ih =>
    intro st hsub hinv hvis
    have hfuel : keyCount schemas + 1 ≤ (schemas.length + 1) + st.visiting.length := by
      have hk : keyCount schemas ≤ schemas.length := by
        have h := (List.dedup_sublist (schemas.map NamedSchemaIR.name)).length_le
        simpa [keyCount] using h
      omega
    have hpre0 : ∀ n ∈ st.visiting, DepPath schemas n p.name := by
      rw [hvis]
      simp
    obtain ⟨hinv1, hvis1, ⟨t1, hres1⟩, hp4, hp5⟩ :=
      visit_master schemas (schemas.length + 1) p.name st hfuel hinv hpre0
    have hvis1e : (visit schemas (schemas.length + 1) p.name st).visiting = [] :=
      hvis1.trans hvis
    obtain ⟨hinv2, hvis2, ⟨t2, hres2⟩, hall2, hnew2⟩ :=
      ih (visit schemas (schemas.length + 1) p.name st)
        (fun s hs => hsub s (List.mem_cons_of_mem _ hs)) hinv1 hvis1e
    have hstep : (p :: pre).foldl
        (fun acc s => visit schemas (schemas.length + 1) s.name acc) st =
        pre.foldl (fun acc s => visit schemas (schemas.length + 1) s.name acc)
          (visit schemas (schemas.length + 1) p.name st) := by
      simp
    rw [hstep]
    have hvmono : (visit schemas (schemas.length + 1) p.name st).visited ⊆
        (pre.foldl (fun acc s => visit schemas (schemas.length + 1) s.name acc)
          (visit schemas (schemas.length + 1) p.name st)).visited := by
      rw [visited_extend hinv1 hinv2 hres2]
      exact fun u hu => List.mem_append_left _ hu
    refine ⟨hinv2, hvis2, ⟨t1 ++ t2, by rw [hres2, hres1, List.append_assoc]⟩, ?_, ?_⟩
    · intro s hs
      rcases List.mem_cons.mp hs with rfl | hs2
      · have hsome : (schemaMapGet schemas s.name).isSome = true :=
          (schemaMapGet_isSome_iff schemas s.name).mpr
            (List.mem_map_of_mem _ (hsub s (List.mem_cons_self _ _)))
        rcases hp4 hsome with hin | hin
        · exact hvmono hin
        · rw [hvis] at hin
          cases hin
      · exact hall2 s hs2
    · intro n hn
      rcases hnew2 n hn with hin | ⟨q, hq, hcase⟩
      · rcases hp5 n hin with h | h
        · exact Or.inl h
        · exact Or.inr ⟨p, List.mem_cons_self _ _, h⟩
      · exact Or.inr ⟨q, List.mem_cons_of_mem _ hq, hcase⟩

/-- Rebuilding a list whose entries the map finds under their own names. -/
theorem filterMap_mapGet_of_names {schemas : List NamedSchemaIR} :
    ∀ {L : List NamedSchemaIR}, (∀ e ∈ L, schemaMapGet schemas e.name = some e) →
    (L.map NamedSchemaIR.name).filterMap (schemaMapGet schemas) = L := by
  intro L
  induction L with
  | nil => intro h; simp
  | cons e rest ih =>
    intro h
    simp only [List.map_cons, List.filterMap_cons]
    rw [h e (List.mem_cons_self _ _)]
    rw [ih (fun u hu => h u (List.mem_cons_of_mem _ hu))]

end Tangen

namespace Tangen

/-- The facts about the output of `topologicalSortSchemas` delivered by the
invariant machinery: output names are pairwise distinct, every output entry
is the map entry of its name, every input name is represented, and every
emitted entry has each mapped dependency either emitted earlier or reaching
back to it. -/
theorem topSort_facts (schemas : List NamedSchemaIR) :
    ((topologicalSortSchemas schemas).map NamedSchemaIR.name).Nodup ∧
    (∀ e ∈ topologicalSortSchemas schemas, schemaMapGet schemas e.name = some e) ∧
    (∀ s ∈ schemas, s.name ∈ (topologicalSortSchemas schemas).map NamedSchemaIR.name) ∧
    (∀ l1 a l2, topologicalSortSchemas schemas = l1 ++ a :: l2 →
      ∀ dep ∈ a.dependencies, (schemaMapGet schemas dep).isSome = true →
      dep ∈ l1.map NamedSchemaIR.name ∨ DepPath schemas dep a.name) := by
  obtain ⟨hinv, hvis, _, hall, _⟩ :=
    sortFold_master schemas schemas ⟨[], [], []⟩ (fun s hs => hs)
      (sortInv_init schemas) rfl
  have hres_eq : topologicalSortSchemas schemas =
      (schemas.foldl (fun acc s => visit schemas (schemas.length + 1) s.name acc)
        ⟨[], [], []⟩).result := rfl
  refine ⟨?_, ?_, ?_, ?_⟩
  · rw [hres_eq, ← hinv.visited_eq]
    exact hinv.visited_nodup
  · intro e he
    rw [hres_eq] at he
    exact hinv.result_mapGet e he
  · intro s hs
    have h := hall s hs
    rw [hinv.visited_eq] at h
    rw [hres_eq]
    exact h
  · intro l1 a l2 hdec
    rw [hres_eq] at hdec
    exact hinv.ordered l1 a l2 hdec

/-- Entry `A`, referencing `B`, of the C1 scenario. -/
def c1EntryA : NamedSchemaIR := createNamedSchema "A" (SchemaIR.ref "B") none

/-- Entry `B`, with no dependencies, of the C1 scenario. -/
def c1EntryB : NamedSchemaIR := createNamedSchema "B" SchemaIR.boolean none

/-- C1: under pairwise-distinct names, whenever `a` appears before `b` in the
output of `topologicalSortSchemas` and `b.name` is among `a.dependencies`, a
dependency cycle exists between `a` and `b` (`a` reaches `b` by the recorded
edge, and `b` reaches `a` back); contrapositively, a pair with `a` before `b`
and no cycle has `b.name` outside `a.dependencies`.  In particular the
scenario with `A` referencing `B` and `B` dependency-free sorts as
`[B, A]`. -/
theorem topologicalSort_dependency_order (schemas : List NamedSchemaIR)
    (hn : (schemas.map NamedSchemaIR.name).Nodup) :
    (∀ r1 a r2 b r3,
      topologicalSortSchemas schemas = r1 ++ a :: (r2 ++ b :: r3) →
      b.name ∈ a.dependencies →
      DepPath schemas a.name b.name ∧ DepPath schemas b.name a.name) ∧
    topologicalSortSchemas [c1EntryA, c1EntryB] = [c1EntryB, c1EntryA] := by
  refine ⟨?_, by rfl⟩
  intro r1 a r2 b r3 hout hdep
  obtain ⟨hnodup, hmapget, _, hord⟩ := topSort_facts schemas
  have hb_mem : b ∈ topologicalSortSchemas schemas := by
    rw [hout]
    simp
  have ha_mem : a ∈ topologicalSortSchemas schemas := by
    rw [hout]
    simp
  have hbmap := hmapget b hb_mem
  have hamap := hmapget a ha_mem
  have hsome : (schemaMapGet schemas b.name).isSome = true := by simp [hbmap]
  rcases hord r1 a (r2 ++ b :: r3) hout b.name hdep hsome with hin | hpath
  · exfalso
    rw [hout] at hnodup
    simp only [List.map_append, List.map_cons] at hnodup
    rcases List.nodup_append.mp hnodup with ⟨_, _, hdisj⟩
    exact hdisj hin (by simp)
  · exact ⟨DepPath.single ⟨a, hamap, hdep⟩, hpath⟩

/-- C1, witness: the scenario pair has distinct names and the theorem applies
to it. -/
theorem topologicalSort_dependency_order_witness :
    (([c1EntryA, c1EntryB].map NamedSchemaIR.name).Nodup) ∧
    topologicalSortSchemas [c1EntryA, c1EntryB] = [c1EntryB, c1EntryA] :=
  ⟨by decide, (topologicalSort_dependency_order [c1EntryA, c1EntryB] (by decide)).2⟩

/-- Entry `A` of the mutually recursive C2 scenario. -/
def c2EntryA : NamedSchemaIR := createNamedSchema "A" (SchemaIR.ref "B") none

/-- Entry `B` of the mutually recursive C2 scenario. -/
def c2EntryB : NamedSchemaIR := createNamedSchema "B" (SchemaIR.ref "A") none

/-- C2: under pairwise-distinct names, `topologicalSortSchemas` (a total
function here — the embedded recursion is fuel-bounded and the bound is
proved sufficient) returns a permutation of its input: every input entry
appears exactly once and nothing is thrown, cycles included.  In particular
the mutually recursive pair `A ↔ B` sorts to `[B, A]`, both present exactly
once. -/
theorem topologicalSort_total_of_nodup (schemas : List NamedSchemaIR)
    (hn : (schemas.map NamedSchemaIR.name).Nodup) :
    (topologicalSortSchemas schemas).Perm schemas ∧
    topologicalSortSchemas [c2EntryA, c2EntryB] = [c2EntryB, c2EntryA] := by
  refine ⟨?_, by rfl⟩
  obtain ⟨hnodup, hmapget, hall, _⟩ := topSort_facts schemas
  have hperm_names : ((topologicalSortSchemas schemas).map NamedSchemaIR.name).Perm
      (schemas.map NamedSchemaIR.name) := by
    rw [List.perm_ext_iff_of_nodup hnodup hn]
    intro n
    constructor
    · intro hmem
      rcases List.mem_map.mp hmem with ⟨e, he, rfl⟩
      exact (schemaMapGet_isSome_iff schemas e.name).mp (by simp [hmapget e he])
    · intro hmem
      rcases List.mem_map.mp hmem with ⟨s, hs, rfl⟩
      exact hall s hs
  have h3 : (((topologicalSortSchemas schemas).map NamedSchemaIR.name).filterMap
      (schemaMapGet schemas)).Perm
      ((schemas.map NamedSchemaIR.name).filterMap (schemaMapGet schemas)) :=
    List.Perm.filterMap _ hperm_names
  rw [filterMap_mapGet_of_names hmapget,
    filterMap_mapGet_of_names (fun s hs => schemaMapGet_self hn hs)] at h3
  exact h3

/-- C2, witness: the mutually recursive pair has distinct names; the sort
permutes it and evaluates to `[B, A]`. -/
theorem topologicalSort_total_of_nodup_witness :
    (([c2EntryA, c2EntryB].map NamedSchemaIR.name).Nodup) ∧
    (topologicalSortSchemas [c2EntryA, c2EntryB]).Perm [c2EntryA, c2EntryB] :=
  ⟨by decide, (topologicalSort_total_of_nodup [c2EntryA, c2EntryB] (by decide)).1⟩

/-- First entry named `A` of the C10 duplicate scenario. -/
def c10First : NamedSchemaIR := createNamedSchema "A" SchemaIR.boolean none

/-- Second entry named `A` of the C10 duplicate scenario. -/
def c10Second : NamedSchemaIR := createNamedSchema "A" (SchemaIR.string none) none

/-- C10: with duplicate names in the input, the output of
`topologicalSortSchemas` holds exactly one entry per name — the last input
entry bearing it, since `schemaMap.set` overwrites — every input name is
still represented, and the output is strictly shorter than the input; the
earlier colliding entries are dropped without any error. -/
theorem topologicalSort_duplicate_names (schemas : List NamedSchemaIR)
    (hdup : ¬ (schemas.map NamedSchemaIR.name).Nodup) :
    (topologicalSortSchemas schemas).length < schemas.length ∧
    ((topologicalSortSchemas schemas).map NamedSchemaIR.name).Nodup ∧
    (∀ n, n ∈ (topologicalSortSchemas schemas).map NamedSchemaIR.name ↔
      n ∈ schemas.map NamedSchemaIR.name) ∧
    (∀ e ∈ topologicalSortSchemas schemas,
      (schemas.filter (fun s => s.name = e.name)).getLast? = some e) := by
  obtain ⟨hnodup, hmapget, hall, _⟩ := topSort_facts schemas
  have hmem_iff : ∀ n, n ∈ (topologicalSortSchemas schemas).map NamedSchemaIR.name ↔
      n ∈ schemas.map NamedSchemaIR.name := by
    intro n
    constructor
    · intro hmem
      rcases List.mem_map.mp hmem with ⟨e, he, rfl⟩
      exact (schemaMapGet_isSome_iff schemas e.name).mp (by simp [hmapget e he])
    · intro hmem
      rcases List.mem_map.mp hmem with ⟨s, hs, rfl⟩
      exact hall s hs
  refine ⟨?_, hnodup, hmem_iff, ?_⟩
  · have hperm : ((topologicalSortSchemas schemas).map NamedSchemaIR.name).Perm
        ((schemas.map NamedSchemaIR.name).dedup) := by
      rw [List.perm_ext_iff_of_nodup hnodup (List.nodup_dedup _)]
      intro n
      rw [List.mem_dedup]
      exact hmem_iff n
    have hlen1 : (topologicalSortSchemas schemas).length =
        ((schemas.map NamedSchemaIR.name).dedup).length := by
      have h := hperm.length_eq
      simpa using h
    have hlen2 : ((schemas.map NamedSchemaIR.name).dedup).length <
        (schemas.map NamedSchemaIR.name).length := by
      rcases Nat.lt_or_ge ((schemas.map NamedSchemaIR.name).dedup).length
        (schemas.map NamedSchemaIR.name).length with h | h
      · exact h
      · exfalso
        have hsub := List.dedup_sublist (schemas.map NamedSchemaIR.name)
        have heq := hsub.eq_of_length (le_antisymm hsub.length_le h)
        rw [← heq] at hdup
        exact hdup (List.nodup_dedup _)
    rw [hlen1]
    simpa using hlen2
  · intro e he
    rw [← schemaMapGet_eq_filter_getLast]
    exact hmapget e he

/-- C10, witness: two entries both named `A`; the sort keeps exactly the
last one. -/
theorem topologicalSort_duplicate_names_witness :
    (¬ (([c10First, c10Second].map NamedSchemaIR.name).Nodup)) ∧
    (topologicalSortSchemas [c10First, c10Second]).length < 2 ∧
    (∀ e ∈ topologicalSortSchemas [c10First, c10Second],
      ([c10First, c10Second].filter (fun s => s.name = e.name)).getLast? = some e) :=
  ⟨by decide,
    by simpa using (topologicalSort_duplicate_names [c10First, c10Second] (by decide)).1,
    (topologicalSort_duplicate_names [c10First, c10Second] (by decide)).2.2.2⟩

end Tangen

namespace Tangen

/-- Entry `A`, referencing `C`, of the C3 counterexample. -/
def c3EntryA : NamedSchemaIR := createNamedSchema "A" (SchemaIR.ref "C") none

/-- Entry `B`, with no dependency relationship to anything, of the C3
counterexample. -/
def c3EntryB : NamedSchemaIR := createNamedSchema "B" SchemaIR.boolean none

/-- Entry `C`, with no dependencies, of the C3 counterexample. -/
def c3EntryC : NamedSchemaIR := createNamedSchema "C" SchemaIR.boolean none

/-- The C3 counterexample input, in parse order `A, B, C`. -/
def c3Input : List NamedSchemaIR := [c3EntryA, c3EntryB, c3EntryC]

/-- C3, counterexample: entries `B` and `C` have no dependency relationship
in either direction, `B` precedes `C` in the input, yet the sorted output is
`[C, A, B]` with `C` before `B`: visiting `A` first pulls its dependency `C`
to the front, reordering the unrelated pair `B, C`. -/
theorem topologicalSort_reorders_unrelated :
    c3Input.map NamedSchemaIR.name = ["A", "B", "C"] ∧
    (topologicalSortSchemas c3Input).map NamedSchemaIR.name = ["C", "A", "B"] ∧
    ¬ DepPath c3Input "B" "C" ∧ ¬ DepPath c3Input "C" "B" := by
  have hedgeB : ∀ z, ¬ DepEdge c3Input "B" z := by
    rintro z ⟨s, hs, hd⟩
    have hcalc : schemaMapGet c3Input "B" = some c3EntryB := by rfl
    rw [hcalc] at hs
    have hse : c3EntryB = s := Option.some.inj hs
    rw [← hse] at hd
    have hdeps : c3EntryB.dependencies = [] := by rfl
    rw [hdeps] at hd
    exact (List.not_mem_nil _) hd
  have hedgeC : ∀ z, ¬ DepEdge c3Input "C" z := by
    rintro z ⟨s, hs, hd⟩
    have hcalc : schemaMapGet c3Input "C" = some c3EntryC := by rfl
    rw [hcalc] at hs
    have hse : c3EntryC = s := Option.some.inj hs
    rw [← hse] at hd
    have hdeps : c3EntryC.dependencies = [] := by rfl
    rw [hdeps] at hd
    exact (List.not_mem_nil _) hd
  refine ⟨by rfl, by rfl, ?_, ?_⟩
  · intro h
    cases h with
    | single e => exact hedgeB _ e
    | cons e _ => exact hedgeB _ e
  · intro h
    cases h with
    | single e => exact hedgeC _ e
    | cons e _ => exact hedgeC _ e

/-- C3, amended: the sort keeps the relative input order of two entries `x`
before `y` provided neither is a dependency (direct or transitive) of any
other entry — with only the mutual independence of `x` and `y` the property
fails, because a third entry may depend on the later one and pull it forward,
as the counterexample shows. -/
theorem topologicalSort_stable_of_undepended (schemas : List NamedSchemaIR)
    (hn : (schemas.map NamedSchemaIR.name).Nodup)
    (x y : NamedSchemaIR) (l1 l2 l3 : List NamedSchemaIR)
    (hsplit : schemas = l1 ++ x :: (l2 ++ y :: l3))
    (hx : ∀ s ∈ schemas, s ≠ x → ¬ DepPath schemas s.name x.name)
    (hy : ∀ s ∈ schemas, s ≠ y → ¬ DepPath schemas s.name y.name) :
    [x.name, y.name].Sublist ((topologicalSortSchemas schemas).map NamedSchemaIR.name) := by
  have hnames : schemas.map NamedSchemaIR.name =
      l1.map NamedSchemaIR.name ++ x.name ::
        (l2.map NamedSchemaIR.name ++ y.name :: l3.map NamedSchemaIR.name) := by
    rw [hsplit]
    simp
  have hn2 := hn
  rw [hnames] at hn2
  rcases List.nodup_append.mp hn2 with ⟨hn_l1, hn_rest, hdisj⟩
  have hx_notin_l1 : x.name ∉ l1.map NamedSchemaIR.name :=
    fun hmem => hdisj hmem (by simp)
  have hy_notin_l1 : y.name ∉ l1.map NamedSchemaIR.name :=
    fun hmem => hdisj hmem (by simp)
  have hxy : x.name ≠ y.name := by
    rcases List.nodup_cons.mp hn_rest with ⟨hxnot, _⟩
    intro h
    exact hxnot (by rw [h]; simp)
  have hxmem : x ∈ schemas := by
    rw [hsplit]
    simp
  have hymem : y ∈ schemas := by
    rw [hsplit]
    simp
  have hxney : x ≠ y := fun h => hxy (by rw [h])
  have hl1sub : ∀ p ∈ l1, p ∈ schemas := by
    intro p hp
    rw [hsplit]
    exact List.mem_append_left _ hp
  obtain ⟨hinvA, hvisA, _, _, hp5A⟩ :=
    sortFold_master schemas l1 ⟨[], [], []⟩ hl1sub (sortInv_init schemas) rfl
  have hnotVisA : ∀ z : NamedSchemaIR, z.name ∉ l1.map NamedSchemaIR.name →
      (∀ s ∈ schemas, s ≠ z → ¬ DepPath schemas s.name z.name) →
      z.name ∉ (l1.foldl
        (fun acc s => visit schemas (schemas.length + 1) s.name acc)
        ⟨[], [], []⟩).visited := by
    intro z hznot hz hmem
    rcases hp5A z.name hmem with h | ⟨p, hp, hcase⟩
    · simp at h
    · rcases hcase with heq | hpath
      · have hm : p.name ∈ l1.map NamedSchemaIR.name := List.mem_map_of_mem _ hp
        rw [← heq] at hm
        exact hznot hm
      · have hpz : p ≠ z := by
          intro h
          rw [h] at hp
          exact hznot (List.mem_map_of_mem _ hp)
        exact hz p (hl1sub p hp) hpz hpath
  have hfuelA : keyCount schemas + 1 ≤ (schemas.length + 1) +
      (l1.foldl (fun acc s => visit schemas (schemas.length + 1) s.name acc)
        ⟨[], [], []⟩).visiting.length := by
    have hk : keyCount schemas ≤ schemas.length := by
      have h := (List.dedup_sublist (schemas.map NamedSchemaIR.name)).length_le
      simpa [keyCount] using h
    omega
  obtain ⟨hinvB, hvisB, ⟨tB, hresB⟩, hp4B, hp5B⟩ :=
    visit_master schemas (schemas.length + 1) x.name
      (l1.foldl (fun acc s => visit schemas (schemas.length + 1) s.name acc)
        ⟨[], [], []⟩)
      hfuelA hinvA (by rw [hvisA]; simp)
  have hvisBe : (visit schemas (schemas.length + 1) x.name
      (l1.foldl (fun acc s => visit schemas (schemas.length + 1) s.name acc)
        ⟨[], [], []⟩)).visiting = [] := hvisB.trans hvisA
  have hxsome : (schemaMapGet schemas x.name).isSome = true :=
    (schemaMapGet_isSome_iff schemas x.name).mpr (List.mem_map_of_mem _ hxmem)
  have hxvisB : x.name ∈ (visit schemas (schemas.length + 1) x.name
      (l1.foldl (fun acc s => visit schemas (schemas.length + 1) s.name acc)
        ⟨[], [], []⟩)).visited := by
    rcases hp4B hxsome with h | h
    · exact h
    · rw [hvisA] at h
      cases h
  have hmapx : schemaMapGet schemas x.name = some x := schemaMapGet_self hn hxmem
  have hxresB : x ∈ (visit schemas (schemas.length + 1) x.name
      (l1.foldl (fun acc s => visit schemas (schemas.length + 1) s.name acc)
        ⟨[], [], []⟩)).result := by
    rw [hinvB.visited_eq] at hxvisB
    rcases List.mem_map.mp hxvisB with ⟨e, he, hename⟩
    have hme := hinvB.result_mapGet e he
    rw [hename, hmapx] at hme
    have hxe : x = e := Option.some.inj hme
    rw [← hxe] at he
    exact he
  have hYnotVisB : y.name ∉ (visit schemas (schemas.length + 1) x.name
      (l1.foldl (fun acc s => visit schemas (schemas.length + 1) s.name acc)
        ⟨[], [], []⟩)).visited := by
    intro hmem
    rcases hp5B y.name hmem with h | h | h
    · exact hnotVisA y hy_notin_l1 hy h
    · exact hxy h.symm
    · exact hy x hxmem hxney h
  have hfold : schemas.foldl
      (fun acc s => visit schemas (schemas.length + 1) s.name acc) ⟨[], [], []⟩ =
      (l2 ++ y :: l3).foldl
        (fun acc s => visit schemas (schemas.length + 1) s.name acc)
        (visit schemas (schemas.length + 1) x.name
          (l1.foldl (fun acc s => visit schemas (schemas.length + 1) s.name acc)
            ⟨[], [], []⟩)) := by
    have e0 : ∀ m : List NamedSchemaIR, m = l1 ++ x :: (l2 ++ y :: l3) →
        m.foldl (fun acc s => visit schemas (schemas.length + 1) s.name acc)
          ⟨[], [], []⟩ =
        (l2 ++ y :: l3).foldl
          (fun acc s => visit schemas (schemas.length + 1) s.name acc)
          (visit schemas (schemas.length + 1) x.name
            (l1.foldl (fun acc s => visit schemas (schemas.length + 1) s.name acc)
              ⟨[], [], []⟩)) := by
      intro m hm
      rw [hm, List.foldl_append, List.foldl_cons]
    exact e0 schemas hsplit
  have hrestsub : ∀ s ∈ l2 ++ y :: l3, s ∈ schemas := by
    intro s hs
    rw [hsplit]
    exact List.mem_append_right _ (List.mem_cons_of_mem _ hs)
  obtain ⟨hinvF, _, ⟨tF, hresF⟩, hallF, _⟩ :=
    sortFold_master schemas (l2 ++ y :: l3)
      (visit schemas (schemas.length + 1) x.name
        (l1.foldl (fun acc s => visit schemas (schemas.length + 1) s.name acc)
          ⟨[], [], []⟩))
      hrestsub hinvB hvisBe
  have hyname_in : y.name ∈ ((l2 ++ y :: l3).foldl
      (fun acc s => visit schemas (schemas.length + 1) s.name acc)
      (visit schemas (schemas.length + 1) x.name
        (l1.foldl (fun acc s => visit schemas (schemas.length + 1) s.name acc)
          ⟨[], [], []⟩))).visited := hallF y (by simp)
  have hmapy : schemaMapGet schemas y.name = some y := schemaMapGet_self hn hymem
  have hyres : y ∈ ((l2 ++ y :: l3).foldl
      (fun acc s => visit schemas (schemas.length + 1) s.name acc)
      (visit schemas (schemas.length + 1) x.name
        (l1.foldl (fun acc s => visit schemas (schemas.length + 1) s.name acc)
          ⟨[], [], []⟩))).result := by
    rw [hinvF.visited_eq] at hyname_in
    rcases List.mem_map.mp hyname_in with ⟨e, he, hename⟩
    have hme := hinvF.result_mapGet e he
    rw [hename, hmapy] at hme
    have hye : y = e := Option.some.inj hme
    rw [← hye] at he
    exact he
  have hynotB : y ∉ (visit schemas (schemas.length + 1) x.name
      (l1.foldl (fun acc s => visit schemas (schemas.length + 1) s.name acc)
        ⟨[], [], []⟩)).result := by
    intro hmem
    exact hYnotVisB (by
      rw [hinvB.visited_eq]
      exact List.mem_map_of_mem _ hmem)
  have hytF : y ∈ tF := by
    rw [hresF] at hyres
    rcases List.mem_append.mp hyres with h | h
    · exact absurd h hynotB
    · exact h
  have hgoal : topologicalSortSchemas schemas =
      (visit schemas (schemas.length + 1) x.name
        (l1.foldl (fun acc s => visit schemas (schemas.length + 1) s.name acc)
          ⟨[], [], []⟩)).result ++ tF := by
    show (schemas.foldl
      (fun st s => visit schemas (schemas.length + 1) s.name st) ⟨[], [], []⟩).result = _
    rw [show (schemas.foldl
        (fun st s => visit schemas (schemas.length + 1) s.name st) ⟨[], [], []⟩) =
        (schemas.foldl
          (fun acc s => visit schemas (schemas.length + 1) s.name acc) ⟨[], [], []⟩)
      from rfl, hfold, hresF]
  rw [hgoal, List.map_append]
  show ([x.name] ++ [y.name]).Sublist _
  exact List.Sublist.append (List.singleton_sublist.mpr (List.mem_map_of_mem _ hxresB))
    (List.singleton_sublist.mpr (List.mem_map_of_mem _ hytF))

end Tangen

namespace Tangen

/-- Entry `X` of the C3 witness input. -/
def c3WitX : NamedSchemaIR := createNamedSchema "X" SchemaIR.boolean none

/-- Entry `Y` of the C3 witness input. -/
def c3WitY : NamedSchemaIR := createNamedSchema "Y" SchemaIR.boolean none

/-- C3, witness for the amended theorem at a concrete two-entry input with
no dependencies anywhere. -/
theorem topologicalSort_stable_of_undepended_witness :
    (([c3WitX, c3WitY].map NamedSchemaIR.name).Nodup) ∧
    [c3WitX.name, c3WitY.name].Sublist
      ((topologicalSortSchemas [c3WitX, c3WitY]).map NamedSchemaIR.name) := by
  have hnoedge : ∀ a b : String, ¬ DepEdge [c3WitX, c3WitY] a b := by
    rintro a b ⟨s, hs, hd⟩
    have hsm := schemaMapGet_mem hs
    rcases List.mem_cons.mp hsm with rfl | hsm2
    · rw [show c3WitX.dependencies = [] from rfl] at hd
      exact (List.not_mem_nil _) hd
    · rcases List.mem_cons.mp hsm2 with rfl | h0
      · rw [show c3WitY.dependencies = [] from rfl] at hd
        exact (List.not_mem_nil _) hd
      · cases h0
  have hnopath : ∀ a b : String, ¬ DepPath [c3WitX, c3WitY] a b := by
    intro a b h
    cases h with
    | single e => exact hnoedge _ _ e
    | cons e _ => exact hnoedge _ _ e
  exact ⟨by decide,
    topologicalSort_stable_of_undepended [c3WitX, c3WitY] (by decide)
      c3WitX c3WitY [] [] [] (by rfl)
      (fun s _ _ => hnopath s.name c3WitX.name)
      (fun s _ _ => hnopath s.name c3WitY.name)⟩

/-! ## Optionality lowering and Zod property emission (C5)

The GraphQL parser, the OpenAPI parser and the Zod emitter are not among the
provided sources; the definitions below are modelled from the spec (its
nullability-mapping rules, its per-kind emitter table and its testable
properties), anchored on the cited emitter test, which feeds
`{schema: {kind: "string"}, required: false}` to the Zod emitter and expects
`email: z.string().nullish()`. -/

/-- One object property of the IR: value schema and `required` flag
(`ObjectPropertyIR` of `ir/types.ts`; the optional `description` is
omitted). -/
structure ObjectPropertyIR : Type where
  schema : SchemaIR
  required : Bool

/-- `makeNullable` from `ir/utils.ts`: union with `null`. -/
def makeNullable (schema : SchemaIR) : SchemaIR :=
  .union (.cons schema (.cons .null .nil))

/-- `makeNullish` from `ir/utils.ts`: union with `null` and `undefined`. -/
def makeNullish (schema : SchemaIR) : SchemaIR :=
  .union (.cons schema (.cons .null (.cons .undefined .nil)))

/-- Modelled from the spec: the expression fragment of the Zod emitter
(`emitters/zod.ts` is not among the provided sources), restricted to the
kinds the nullability claims exercise; the remaining kinds fall back to the
permissive `z.unknown()` the spec prescribes for unsupported nodes.  Format
tags and constraints play no role in these claims and are not rendered. -/
def zodSchemaExpr : SchemaIR → String
  | .string _ => "z.string()"
  | .number _ => "z.number()"
  | .boolean => "z.boolean()"
  | .null => "z.null()"
  | .undefined => "z.undefined()"
  | _ => "z.unknown()"

/-- Modelled from the spec: the Zod emitter line for one object property.
Per the emitter table (`object optional prop` → `.nullish()` suffix), the
scenario `email: z.string().nullish()` and the cited emitter test, a
property with `required := false` receives the `.nullish()` suffix. -/
def zodEmitProperty (pname : String) (prop : ObjectPropertyIR) : String :=
  pname ++ ": " ++ zodSchemaExpr prop.schema ++
    (if prop.required then "" else ".nullish()")

/-- Modelled from the spec: lowering of a GraphQL input-object field.  A
field wrapped in non-null (`T!`) is required; without the wrapper it is
optional and nullish, which the modifier collapse realises as the consuming
object property carrying `required := false` (the null acceptance is
supplied by the emitter, e.g. Zod `.nullish()`). -/
def graphqlInputFieldIR (base : SchemaIR) (nonNull : Bool) : ObjectPropertyIR :=
  if nonNull then ⟨base, true⟩ else ⟨base, false⟩

/-- Modelled from the spec: lowering of an OpenAPI path/query parameter into
a property of the grouped params schema.  `required: false` makes the
property optional (not nullish); only `nullable: true` wraps the schema in a
union with `null` (`makeNullable`). -/
def openapiParamIR (base : SchemaIR) (required : Bool) (nullable : Bool) :
    ObjectPropertyIR :=
  ⟨if nullable then makeNullable base else base, required⟩

/-- C5, counterexample: an OpenAPI query parameter `limit` with
`required: false` and no `nullable` lowers to the optional-only IR property
`{schema: string, required: false}`, yet the Zod emitter — per its own test,
the one the claim cites — renders every optional property with `.nullish()`:
the emitted code is `limit: z.string().nullish()`, which accepts `null`, and
is identical to the rendering of a GraphQL input field without non-null
wrapper, so the emitted schema code does not keep the two cases distinct. -/
theorem zod_optional_param_gets_nullish :
    openapiParamIR (SchemaIR.string none) false false =
      ⟨SchemaIR.string none, false⟩ ∧
    zodEmitProperty "limit" (openapiParamIR (SchemaIR.string none) false false) =
      "limit: z.string().nullish()" ∧
    zodEmitProperty "limit" (openapiParamIR (SchemaIR.string none) false false) =
      zodEmitProperty "limit" (graphqlInputFieldIR (SchemaIR.string none) false) := by
  refine ⟨rfl, by decide, rfl⟩

/-- C5, amended: a GraphQL input field without non-null wrapper does emit as
nullish in Zod, and an OpenAPI parameter with `required: false` and no
`nullable` is kept optional-only at the IR level (`required := false`, no
union with `null`); but the distinction does not survive into the emitted
Zod code, because the Zod emitter suffixes `.nullish()` onto every
non-required property, so both lower to the same property IR and emit the
same null-accepting code. -/
theorem zod_optional_vs_nullish_emission (pname : String) (base : SchemaIR) :
    graphqlInputFieldIR base false = ⟨base, false⟩ ∧
    openapiParamIR base false false = ⟨base, false⟩ ∧
    zodEmitProperty pname (graphqlInputFieldIR base false) =
      pname ++ ": " ++ zodSchemaExpr base ++ ".nullish()" ∧
    zodEmitProperty pname (openapiParamIR base false false) =
      zodEmitProperty pname (graphqlInputFieldIR base false) := by
  refine ⟨rfl, rfl, rfl, rfl⟩

end Tangen
